import Mathlib

/-!
Verification of the HomeworkCI pipeline runner core.

The development shallowly embeds the engine (`runPipeline` and its step
loop), the module loader (`loadModule`), the cron scheduler (`tick`), and
the event bus (`publish`), and proves the stated properties about them.
External collaborators (dynamic `import`, `cron-parser`, the filesystem
store of pipelines) are modelled as function parameters.
-/

/-! ## Engine data model (engine source, early revision) -/

/-- One pipeline step: optional `id`, optional `description`, a module
name and an opaque parameter bag (`params`), mirroring `PipelineStep`. -/
structure EngStep where
  id : Option String
  description : Option String
  module : String
  params : Option String
deriving DecidableEq

instance : Inhabited EngStep := ⟨⟨none, none, "", none⟩⟩

/-- A pipeline: id, display name, optional cron schedule, ordered steps. -/
structure EngPipeline where
  id : String
  name : String
  schedule : Option String
  steps : List EngStep
deriving DecidableEq

/-- Per-run context shared between steps, mirroring the `ctx` object built
by `runPipeline`: working directory, environment, results accumulator,
pipeline identity and start timestamp. -/
structure EngCtx (α : Type) where
  cwd : String
  workDir : String
  env : List (String × String)
  results : List (String × α)
  pipelineId : String
  startTime : Nat
deriving DecidableEq

/-- A loaded step module: `run(ctx, params)` either returns a value or
throws (modelled as `Except` with the thrown message). -/
abbrev RunFn (α : Type) := EngCtx α → String → Except String α

/-- JS `a || b` for an optional string field: `undefined` and the empty
string are falsy. -/
def jsOrStr (a : Option String) (b : String) : String :=
  match a with
  | some s => if s = "" then b else s
  | none => b

/-- The display name of a step: `step.description || step.module`. -/
def stepDisplayName (s : EngStep) : String :=
  jsOrStr s.description s.module

/-- The key under which a step's result is stored: `step.id` when truthy
(present and non-empty), otherwise the step stores nothing. -/
def truthyId (s : EngStep) : Option String :=
  match s.id with
  | some k => if k = "" then none else some k
  | none => none

/-- JS object property assignment `results[k] = v`: overwrite in place if
the key exists, otherwise append. -/
def setResult {α : Type} : List (String × α) → String → α → List (String × α)
  | [], k, v => [(k, v)]
  | (k', v') :: t, k, v =>
    if k' = k then (k, v) :: t else (k', v') :: setResult t k v

/-- Errors thrown by `runPipeline`. -/
inductive EngErr where
  | pipelineNotFound (id : String)
  | stepFailed (stepName : String) (msg : String)
deriving DecidableEq

/-- The message string carried by each thrown error, exactly as built by
the source (template literals). -/
def renderEngErr : EngErr → String
  | .pipelineNotFound id => "Pipeline " ++ id ++ " not found"
  | .stepFailed n msg => "Step \x27" ++ n ++ "\x27 failed: " ++ msg

/-- Observable actions of the step loop: a module invocation (`mod.run`)
for the step at a given index, a write into `ctx.results`, and the
successful completion of a step's try-block. -/
inductive EngEvent (α : Type) where
  | invoke (i : Nat) (moduleName : String)
  | write (key : String) (v : α)
  | stepDone (i : Nat)
deriving DecidableEq

/-- Result of running the step loop: the trace of observable actions, the
final context, and the error that aborted the loop, if any. -/
structure EngOut (α : Type) where
  tr : List (EngEvent α)
  ctx : EngCtx α
  err : Option EngErr
deriving DecidableEq

/-- The `for (const step of pipeline.steps)` loop of `runPipeline`: load
the step's module (null means the wrapped "not found" failure), invoke
`mod.run(ctx, step.params || {})`, record the result under `step.id` when
truthy, and wrap any failure as `Step '<name>' failed: <msg>`, aborting
the loop. `i` is the index of the first remaining step. -/
def runSteps {α : Type} (loadMod : String → Option (RunFn α)) :
    EngCtx α → List EngStep → Nat → EngOut α
  | ctx, [], _ => ⟨[], ctx, none⟩
  | ctx, s :: rest, i =>
    match loadMod s.module with
    | none =>
      ⟨[], ctx, some (.stepFailed (stepDisplayName s)
        ("Module \x27" ++ s.module ++ "\x27 not found"))⟩
    | some f =>
      match f ctx (jsOrStr s.params "") with
      | .error msg =>
        ⟨[.invoke i s.module], ctx, some (.stepFailed (stepDisplayName s) msg)⟩
      | .ok v =>
        let ctx' : EngCtx α :=
          match truthyId s with
          | some k => { ctx with results := setResult ctx.results k v }
          | none => ctx
        let wr : List (EngEvent α) :=
          match truthyId s with
          | some k => [.write k v]
          | none => []
        let o := runSteps loadMod ctx' rest (i + 1)
        ⟨.invoke i s.module :: (wr ++ (.stepDone i :: o.tr)), o.ctx, o.err⟩

/-- The context built at the top of `runPipeline`. -/
def mkCtx {α : Type} (cwd : String) (env : List (String × String))
    (id : String) (startTime : Nat) : EngCtx α :=
  ⟨cwd, cwd, env, [], id, startTime⟩

/-- The outcome returned by a successful `runPipeline` call. -/
structure EngOutcome where
  success : Bool
  duration : Nat
deriving DecidableEq

/-- `runPipeline(id)`: load the pipeline (throwing `Pipeline <id> not
found` when the store yields null), run the step loop, and return
`{ success: true, duration }` or rethrow the step failure. -/
def runPipeline {α : Type} (loadPipe : String → Option EngPipeline)
    (loadMod : String → Option (RunFn α)) (cwd : String)
    (env : List (String × String)) (startTime now : Nat) (id : String) :
    Except EngErr EngOutcome :=
  match loadPipe id with
  | none => .error (.pipelineNotFound id)
  | some p =>
    match (runSteps loadMod (mkCtx cwd env id startTime) p.steps 0).err with
    | some e => .error e
    | none => .ok ⟨true, now - startTime⟩

/-- Indices of `invoke` events in a trace. -/
def invokedIdxs {α : Type} (tr : List (EngEvent α)) : List Nat :=
  tr.filterMap fun e =>
    match e with
    | .invoke i _ => some i
    | _ => none

/-- Indices of `stepDone` events in a trace. -/
def doneIdxs {α : Type} (tr : List (EngEvent α)) : List Nat :=
  tr.filterMap fun e =>
    match e with
    | .stepDone i => some i
    | _ => none

/-- The result writes performed in a trace, in order. -/
def writesOf {α : Type} (tr : List (EngEvent α)) : List (String × α) :=
  tr.filterMap fun e =>
    match e with
    | .write k v => some (k, v)
    | _ => none

/-! ## Module loader (`modules.ts`) -/

/-- What the dynamic `import` of a module file yields: either a thrown
error (file missing, syntax error) or a namespace object whose `run`
export may or may not be a callable. -/
inductive ImportOut (α : Type) where
  | err (msg : String)
  | ok (run? : Option (RunFn α))

/-- `loadModule(name)`: import the module file (cache-busted), throw
inside the `try` when `typeof mod.run !== "function"`, and return `null`
from the `catch` on any failure. -/
def loadModule {α : Type} (importFn : String → ImportOut α) (name : String) :
    Option (RunFn α) :=
  match importFn name with
  | .err _ => none
  | .ok run? =>
    match run? with
    | none => none
    | some f => some f

/-! ## Cron scheduler (`scheduler.ts`) -/

/-- What the scheduler reads from a pipeline. -/
structure SPipe where
  id : String
  name : String
  schedule : Option String
deriving DecidableEq

/-- The dedup key: `` `${p.id}-${prevDate.getTime()}` ``. -/
def keyOf (id : String) (t : Nat) : String :=
  id ++ "-" ++ Nat.repr t

/-- Record a trigger key in `lastChecks` (a `Map`, insertion ordered) and
evict the oldest entry once the size exceeds 100. -/
def recordKey (st : List (String × Nat)) (key : String) (nowMs : Nat) :
    List (String × Nat) :=
  let st' := st ++ [(key, nowMs)]
  if st'.length > 100 then st'.drop 1 else st'

/-- One `tick()`: for every pipeline with a truthy `schedule`, evaluate the
cron expression's most recent previous instant (`prevFn` models
`cron-parser`; `none` models a thrown evaluation error, which skips the
pipeline), and when `0 <= now - prev < 70000` and the key is not yet in
`lastChecks`, record the key and trigger the run (fire-and-forget).
Returns the new `lastChecks` and the list of `(pipelineId, instant)`
pairs triggered, in order. -/
def tick (prevFn : String → Nat → Option Nat) (now : Nat) :
    List SPipe → List (String × Nat) →
    List (String × Nat) × List (String × Nat)
  | [], st => (st, [])
  | p :: ps, st =>
    match p.schedule with
    | none => tick prevFn now ps st
    | some sch =>
      if sch = "" then tick prevFn now ps st
      else
        match prevFn sch now with
        | none => tick prevFn now ps st
        | some t =>
          let df : Int := (now : Int) - (t : Int)
          if df < 70000 ∧ 0 ≤ df then
            let key := keyOf p.id t
            if key ∈ st.map Prod.fst then tick prevFn now ps st
            else
              let r := tick prevFn now ps (recordKey st key now)
              (r.1, (p.id, t) :: r.2)
          else tick prevFn now ps st

/-- A sequence of ticks applied from a starting state: each element gives
the tick's cron evaluator, pipeline list and clock reading. -/
def applyTicks :
    List ((String → Nat → Option Nat) × List SPipe × Nat) →
    List (String × Nat) → List (String × Nat)
  | [], st => st
  | (f, ps, now) :: rest, st => applyTicks rest (tick f now ps st).1

/-! ## Event bus (`pubsub.ts`) -/

/-- `subscribe`: push the listener onto the array. -/
def subscribeL {L : Type} (ls : List L) (l : L) : List L := ls ++ [l]

/-- `unsubscribe`: filter the listener out of the array. -/
def unsubscribeL {L : Type} [DecidableEq L] (ls : List L) (l : L) : List L :=
  ls.filter fun x => decide (x ≠ l)

/-- `publish(event)`: `listeners.forEach(l => l(event))`. Each listener is
invoked synchronously in array order; a listener that throws aborts the
`forEach` and the exception propagates to the publisher. Returns the
listeners actually invoked and the propagated exception, if any. -/
def publishTo {L E Er : Type} (behav : L → E → Except Er Unit) (e : E) :
    List L → List L × Option Er
  | [] => ([], none)
  | l :: ls =>
    match behav l e with
    | .ok _ =>
      let r := publishTo behav e ls
      (l :: r.1, r.2)
    | .error er => ([l], some er)

/-! ## Current orchestrator (spec model)
The repository's current execution engine (parallel stages, cancellation,
persistence and event publication; the `runPipeline` returning
`{success, duration, runId, workDir}` that the client's `RunResult` and
the persistence port in `logger.ts` are written against) is not among the
available sources, so it is modelled here from the spec. -/

/-- Modelled from the spec: terminal run status (`success`/`fail`/
`cancelled`), as recorded by `finishRun`. The engine source implementing
this is missing; only its persistence port (`logger.ts`) is available. -/
inductive MStatus where
  | success
  | fail
  | cancelled
deriving DecidableEq

/-- Modelled from the spec: a step as the orchestrator sees it (name and
module identifier; parameters are opaque and omitted). -/
structure MStep where
  name : String
  module : String
deriving DecidableEq

instance : Inhabited MStep := ⟨⟨"", ""⟩⟩

/-- Modelled from the spec: a `StepItem` is a single step or a parallel
group of steps. -/
inductive MItem where
  | single (s : MStep)
  | par (g : List MStep)
deriving DecidableEq

/-- Modelled from the spec: a pipeline as the orchestrator consumes it. -/
structure MPipeline where
  id : String
  steps : List MItem
deriving DecidableEq

/-- Modelled from the spec: the resolved execution plan for a valid
pipeline — each top-level `StepItem` becomes one stage (a lone step a
single-step stage, a parallel group a multi-step stage); DAG validation
is assumed to have succeeded. -/
def planOf (p : MPipeline) : List (List MStep) :=
  p.steps.map fun it =>
    match it with
    | .single s => [s]
    | .par g => g

/-- Total number of step slots in a plan. -/
def totalSlots (stages : List (List MStep)) : Nat :=
  (stages.map List.length).sum

/-- The outcome of one step invocation. -/
inductive SOut where
  | ok
  | failed (msg : String)
  | cancelled
deriving DecidableEq

/-- Modelled from the spec: one step invocation. Each step occupies a
global slot (its dispatch position); `cancelAt = some c` means the run's
cancellation token is signalled before the step in slot `c` finishes, and
every step invocation from that slot on observes it cooperatively and
terminates with the distinguished cancelled outcome; otherwise the step's
module either returns or throws (`behav`). -/
def stepOut (behav : MStep → Except String Unit) (cancelAt : Option Nat)
    (slot : Nat) (s : MStep) : SOut :=
  match cancelAt with
  | some c =>
    if c ≤ slot then .cancelled
    else
      match behav s with
      | .ok _ => .ok
      | .error m => .failed m
  | none =>
    match behav s with
    | .ok _ => .ok
    | .error m => .failed m

/-- Events published on the bus by the orchestrator. -/
inductive MEvent where
  | runStart
  | stepStart (n : String)
  | stepEnd (n : String) (ok : Bool)
  | runEnd (ok : Bool)
deriving DecidableEq

/-- Calls made on the persistence port. -/
inductive PCall where
  | startRun (pid runId : String)
  | startStep (n m : String)
  | finishStep (n : String) (ok : Bool)
  | finishRun (st : MStatus) (log : String) (dur : Nat)
deriving DecidableEq

/-- Is a persistence call a `finishRun`? -/
def isFinishRun : PCall → Bool
  | .finishRun _ _ _ => true
  | _ => false

/-- Turn an arbitrary completion schedule `σ` into a genuine completion
order for a stage of `n` steps: keep the valid distinct indices of `σ`
and append the steps it missed. Sibling completion order is otherwise
unconstrained. -/
def ordIdxs (σ : List Nat) (n : Nat) : List Nat :=
  let g := (σ.filter fun j => decide (j < n)).dedup
  g ++ (List.range n).filter fun j => decide (j ∉ g)

/-- Modelled from the spec: execution of one stage. All of the stage's
steps are dispatched concurrently — `startStep` persisted and
`step-start` published for each, in declaration order — and the
orchestrator awaits all of them; completions (`finishStep` persisted,
`step-end` published) arrive in the arbitrary sibling order `σ`. Returns
the stage's events, persistence calls and per-step outcomes. -/
def execStage (behav : MStep → Except String Unit) (cancelAt : Option Nat)
    (base : Nat) (stage : List MStep) (σ : List Nat) :
    List MEvent × List PCall × List SOut :=
  let outAt : Nat → SOut := fun j =>
    stepOut behav cancelAt (base + j) (stage.getD j default)
  let starts := stage.map fun s => MEvent.stepStart s.name
  let pstarts := stage.map fun s => PCall.startStep s.name s.module
  let ord := ordIdxs σ stage.length
  let ends := ord.map fun j =>
    MEvent.stepEnd (stage.getD j default).name (decide (outAt j = SOut.ok))
  let pends := ord.map fun j =>
    PCall.finishStep (stage.getD j default).name (decide (outAt j = SOut.ok))
  (starts ++ ends, pstarts ++ pends, (List.range stage.length).map outAt)

/-- Run-level result, separating a step failure (with the failing step's
name and message) from cancellation. -/
inductive RunRes where
  | success
  | failed (n msg : String)
  | cancelled
deriving DecidableEq

/-- The terminal status recorded for a run result. -/
def statusOf : RunRes → MStatus
  | .success => .success
  | .failed _ _ => .fail
  | .cancelled => .cancelled

/-- The first failed step of a stage, with its error message. -/
def firstFail (stage : List MStep) (outs : List SOut) :
    Option (String × String) :=
  (stage.zip outs).findSome? fun p =>
    match p.2 with
    | .failed m => some (p.1.name, m)
    | _ => none

/-- Modelled from the spec: stage-by-stage execution in plan order. A
stage in which the cancellation token was observed makes the run
`cancelled`; otherwise the first step failure makes it `failed`; no
further stage is started after either. `σs` supplies each stage's sibling
completion order. -/
def execStages (behav : MStep → Except String Unit) (cancelAt : Option Nat) :
    List (List MStep) → Nat → List (List Nat) →
    List MEvent × List PCall × RunRes
  | [], _, _ => ([], [], .success)
  | st :: rest, base, σs =>
    let r := execStage behav cancelAt base st (σs.headD [])
    if r.2.2.any fun o => decide (o = SOut.cancelled) then
      (r.1, r.2.1, .cancelled)
    else
      match firstFail st r.2.2 with
      | some nm => (r.1, r.2.1, .failed nm.1 nm.2)
      | none =>
        let r2 := execStages behav cancelAt rest (base + st.length) σs.tail
        (r.1 ++ r2.1, r.2.1 ++ r2.2.1, r2.2.2)

/-- The accumulated run log, rendered from the event trace. -/
def renderLogM (ev : List MEvent) : String :=
  String.intercalate ("; ") (ev.map fun e =>
    match e with
    | .runStart => "run started"
    | .stepStart n => "step " ++ n ++ " started"
    | .stepEnd n ok => "step " ++ n ++ (if ok then " ok" else " failed")
    | .runEnd ok => if ok then "run succeeded" else "run ended")

/-- Modelled from the spec: `execute(pipeline)` — publish `start`, persist
`startRun`, walk the plan, and on the terminal transition persist
`finishRun` with the status, accumulated log and duration, publishing
`end`. -/
def execute (behav : MStep → Except String Unit) (cancelAt : Option Nat)
    (p : MPipeline) (runId : String) (dur : Nat) (σs : List (List Nat)) :
    List MEvent × List PCall × RunRes :=
  let r := execStages behav cancelAt (planOf p) 0 σs
  let evAll := MEvent.runStart :: r.1 ++ [MEvent.runEnd (decide (r.2.2 = RunRes.success))]
  (evAll,
   PCall.startRun p.id runId :: r.2.1
     ++ [PCall.finishRun (statusOf r.2.2) (renderLogM evAll) dur],
   r.2.2)

/-- Modelled from the spec: the run outcome `{success, duration, runId,
workDir}` (the client's `RunResult` declaration carries exactly these
fields). -/
structure MOutcome where
  success : Bool
  duration : Nat
  runId : String
  workDir : String
deriving DecidableEq

/-- Errors surfaced by the current `runPipeline`. -/
inductive MErr where
  | pipelineNotFound (id : String)
  | stepFailure (n msg : String)
deriving DecidableEq

/-- Modelled from the spec: `runPipeline(id)` — resolve the id (failing
with `PipelineNotFound` when the store yields nothing), execute, and
either return the outcome or rethrow the wrapped step failure. -/
def runPipelineFull (store : String → Option MPipeline)
    (behav : MStep → Except String Unit) (cancelAt : Option Nat)
    (id runId workDir : String) (dur : Nat) (σs : List (List Nat)) :
    List MEvent × List PCall × Except MErr MOutcome :=
  match store id with
  | none => ([], [], .error (.pipelineNotFound id))
  | some p =>
    let r := execute behav cancelAt p runId dur σs
    match r.2.2 with
    | .success => (r.1, r.2.1, .ok ⟨true, dur, runId, workDir⟩)
    | .cancelled => (r.1, r.2.1, .ok ⟨false, dur, runId, workDir⟩)
    | .failed n m => (r.1, r.2.1, .error (.stepFailure n m))

/-! ## Claim C1 -/

/-- The property proved for C1, about the run of pipeline `p`: the step
loop completes some prefix of `n` steps in declaration order; module
invocations are exactly the consecutive indices from `0` (so a step's
module is invoked only after all earlier steps completed); on success the
run returns the outcome; on a step failure the run throws an error that
wraps the failing step's display name — and whose rendered message
mentions it — and no later step's module is ever invoked. -/
def seqFailFast {α : Type} (loadPipe : String → Option EngPipeline)
    (loadMod : String → Option (RunFn α)) (cwd : String)
    (env : List (String × String)) (startTime now : Nat) (id : String)
    (p : EngPipeline) : Prop :=
  ∃ n, n ≤ p.steps.length ∧
    doneIdxs (runSteps loadMod (mkCtx cwd env id startTime) p.steps 0).tr
      = List.range' 0 n ∧
    (invokedIdxs (runSteps loadMod (mkCtx cwd env id startTime) p.steps 0).tr
        = List.range' 0 n ∨
     invokedIdxs (runSteps loadMod (mkCtx cwd env id startTime) p.steps 0).tr
        = List.range' 0 (n + 1)) ∧
    ((runSteps loadMod (mkCtx cwd env id startTime) p.steps 0).err = none →
      runPipeline loadPipe loadMod cwd env startTime now id
        = .ok ⟨true, now - startTime⟩ ∧ n = p.steps.length) ∧
    (∀ e, (runSteps loadMod (mkCtx cwd env id startTime) p.steps 0).err
        = some e →
      n < p.steps.length ∧
      runPipeline loadPipe loadMod cwd env startTime now id = .error e ∧
      (∃ msg, e = .stepFailed (stepDisplayName (p.steps.getD n default)) msg ∧
        renderEngErr e = "Step \x27"
          ++ stepDisplayName (p.steps.getD n default)
          ++ "\x27 failed: " ++ msg) ∧
      (∀ j ∈ invokedIdxs
          (runSteps loadMod (mkCtx cwd env id startTime) p.steps 0).tr,
        j ≤ n))

/-- A two-step pipeline whose first step's module throws. -/
def c1Pipe : EngPipeline :=
  ⟨"demo", "Demo", none,
   [⟨some ("a"), none, "boom", none⟩, ⟨some ("b"), none, "fine", none⟩]⟩

/-- A store holding only `c1Pipe`. -/
def c1Store : String → Option EngPipeline :=
  fun s => if s = "demo" then some c1Pipe else none

/-- Modules for the witness: `boom` throws, everything else returns 7. -/
def c1Mods : String → Option (RunFn Nat) :=
  fun s =>
    if s = "boom" then some (fun _ _ => .error ("kaput"))
    else some (fun _ _ => .ok 7)

/-! ## Claim C2 -/

/-- The property proved for C2, about the run of pipeline `p`: some prefix
of `n` steps completes successfully; the run context's `results` mapping
is exactly the sequence of writes performed, holds exactly one entry per
successfully completed step with a truthy id — keyed by that id — and
nothing else; its keys are unique, and no key is ever written twice. -/
def resultsExact {α : Type} (loadMod : String → Option (RunFn α))
    (cwd : String) (env : List (String × String)) (startTime : Nat)
    (id : String) (p : EngPipeline) : Prop :=
  ∃ n, n ≤ p.steps.length ∧
    doneIdxs (runSteps loadMod (mkCtx cwd env id startTime) p.steps 0).tr
      = List.range' 0 n ∧
    (runSteps loadMod (mkCtx cwd env id startTime) p.steps 0).ctx.results
      = writesOf (runSteps loadMod (mkCtx cwd env id startTime) p.steps 0).tr ∧
    ((runSteps loadMod (mkCtx cwd env id startTime) p.steps 0).ctx.results.map
        Prod.fst)
      = (p.steps.take n).filterMap truthyId ∧
    ((runSteps loadMod (mkCtx cwd env id startTime) p.steps 0).ctx.results.map
        Prod.fst).Nodup ∧
    ∀ k1, ((writesOf
        (runSteps loadMod (mkCtx cwd env id startTime) p.steps 0).tr).map
          Prod.fst).count k1 ≤ 1

/-- A two-step pipeline with distinct step ids, both steps succeeding. -/
def c2Pipe : EngPipeline :=
  ⟨"d2", "Demo2", none,
   [⟨some ("x"), none, "m1", none⟩, ⟨some ("y"), none, "m2", none⟩]⟩

/-- A store holding only `c2Pipe`. -/
def c2Store : String → Option EngPipeline :=
  fun s => if s = "d2" then some c2Pipe else none

/-- Modules for the witness: everything succeeds. -/
def c2Mods : String → Option (RunFn Nat) :=
  fun _ => some (fun _ _ => .ok 3)

/-- An import that always throws (missing file). -/
def c10ImportErr : String → ImportOut Nat :=
  fun _ => .err ("not found on disk")

/-- An import that succeeds but yields a module without a callable `run`
export. -/
def c10ImportNoRun : String → ImportOut Nat :=
  fun _ => .ok none

/-- A step using module `mm`. -/
def c10Step : EngStep := ⟨none, none, "mm", none⟩

/-- A context for the witness run. -/
def c10Ctx : EngCtx Nat := mkCtx "" [] "d10" 0

/-! ## Claim C7 -/

/-- 101 pipelines all on the same schedule expression. -/
def c7Pipes : List SPipe :=
  (List.range 101).map fun j => ⟨Nat.repr j, Nat.repr j, some ("0 0 1 1 *")⟩

/-- A cron evaluator under which the most recent scheduled instant is
always the epoch instant 0 (the behavior of the yearly expression around
the epoch). -/
def c7Prev : String → Nat → Option Nat := fun _ _ => some 0

/-- A single scheduled pipeline, for the amended-C7 witness. -/
def c7wPipes : List SPipe := [⟨"a", "a", some ("0 0 1 1 *")⟩]

/-- A full key set of 100 entries. -/
def c8Full : List (String × Nat) := (List.range 100).map fun j => (Nat.repr j, 0)

/-! ## Claim C9 -/

/-- Listener behavior where listener 1 throws and every other listener
succeeds. -/
def c9BadBehav : Nat → Unit → Except Unit Unit :=
  fun l _ => if l = 1 then .error () else .ok ()

/-- Listener behavior where every listener succeeds. -/
def c9GoodBehav : Nat → Unit → Except Unit Unit := fun _ _ => .ok ()

/-- A one-step pipeline for the C3 witness. -/
def c3Pipe : MPipeline := ⟨"w3", [.single ⟨"A", "m"⟩]⟩

/-- A store holding only `c3Pipe`. -/
def c3Store : String → Option MPipeline :=
  fun s => if s = "w3" then some c3Pipe else none

/-- Step behavior for the C3 witness: every module succeeds. -/
def c3Behav : MStep → Except String Unit := fun _ => .ok ()

/-- A parallel stage `[C, D]` for the C5 witness. -/
def c5Stage : List MStep := [⟨"C", "m1"⟩, ⟨"D", "m2"⟩]

/-- Step behavior for the C5 witness: every module succeeds. -/
def c5Behav : MStep → Except String Unit := fun _ => .ok ()

/-- A two-step pipeline for the C6 witness. -/
def c6Pipe : MPipeline := ⟨"w6", [.single ⟨"A", "m"⟩, .single ⟨"B", "m"⟩]⟩

/-- Step behavior for the C6 witness: every module succeeds. -/
def c6Behav : MStep → Except String Unit := fun _ => .ok ()

/-! ## Engine lemmas -/

theorem invokedIdxs_cons {α : Type} (e : EngEvent α) (tr : List (EngEvent α)) :
    invokedIdxs (e :: tr) =
      (match e with
       | .invoke i _ => [i]
       | _ => ([] : List Nat)) ++ invokedIdxs tr := by
  cases e <;> simp [invokedIdxs]

theorem doneIdxs_cons {α : Type} (e : EngEvent α) (tr : List (EngEvent α)) :
    doneIdxs (e :: tr) =
      (match e with
       | .stepDone i => [i]
       | _ => ([] : List Nat)) ++ doneIdxs tr := by
  cases e <;> simp [doneIdxs]

theorem writesOf_cons {α : Type} (e : EngEvent α) (tr : List (EngEvent α)) :
    writesOf (e :: tr) =
      (match e with
       | .write k v => [(k, v)]
       | _ => ([] : List (String × α))) ++ writesOf tr := by
  cases e <;> simp [writesOf]

theorem invokedIdxs_append {α : Type} (a b : List (EngEvent α)) :
    invokedIdxs (a ++ b) = invokedIdxs a ++ invokedIdxs b := by
  simp [invokedIdxs]

theorem doneIdxs_append {α : Type} (a b : List (EngEvent α)) :
    doneIdxs (a ++ b) = doneIdxs a ++ doneIdxs b := by
  simp [doneIdxs]

theorem writesOf_append {α : Type} (a b : List (EngEvent α)) :
    writesOf (a ++ b) = writesOf a ++ writesOf b := by
  simp [writesOf]

theorem range'_succ_eq (s n : Nat) :
    List.range' s (n + 1) = s :: List.range' (s + 1) n := rfl

/-- Full characterization of the step loop: some prefix of `n` steps
completes successfully in declaration order; the result writes are exactly
the truthy ids of that prefix; the final `results` is the fold of those
writes; on success all steps were invoked in order, and on failure the
error wraps the display name of step `n`, whose successors are never
invoked. -/
theorem runSteps_char {α : Type} (loadMod : String → Option (RunFn α))
    (steps : List EngStep) : ∀ (i : Nat) (ctx : EngCtx α),
    ∃ n, n ≤ steps.length ∧
      doneIdxs (runSteps loadMod ctx steps i).tr = List.range' i n ∧
      (writesOf (runSteps loadMod ctx steps i).tr).map Prod.fst
        = (steps.take n).filterMap truthyId ∧
      (runSteps loadMod ctx steps i).ctx.results
        = (writesOf (runSteps loadMod ctx steps i).tr).foldl
            (fun m kv => setResult m kv.1 kv.2) ctx.results ∧
      ((runSteps loadMod ctx steps i).err = none →
        n = steps.length ∧
        invokedIdxs (runSteps loadMod ctx steps i).tr = List.range' i n) ∧
      (∀ e, (runSteps loadMod ctx steps i).err = some e →
        n < steps.length ∧
        (∃ msg, e = .stepFailed (stepDisplayName (steps.getD n default)) msg) ∧
        (invokedIdxs (runSteps loadMod ctx steps i).tr = List.range' i n ∨
         invokedIdxs (runSteps loadMod ctx steps i).tr = List.range' i (n + 1))) := by
  induction steps with
  | nil =>
    intro i ctx
    refine ⟨0, ?_⟩
    simp [runSteps, invokedIdxs, doneIdxs, writesOf]
  | cons s rest ih =>
    intro i ctx
    cases hl : loadMod s.module with
    | none =>
      refine ⟨0, ?_⟩
      simp [runSteps, hl, invokedIdxs, doneIdxs, writesOf, List.range']
    | some f =>
      cases hf : f ctx (jsOrStr s.params "") with
      | error msg =>
        refine ⟨0, ?_⟩
        simp [runSteps, hl, hf, invokedIdxs, doneIdxs, writesOf, List.range']
      | ok v =>
        cases hid : truthyId s with
        | none =>
          have hstep : runSteps loadMod ctx (s :: rest) i =
              ⟨EngEvent.invoke i s.module ::
                 (EngEvent.stepDone i :: (runSteps loadMod ctx rest (i + 1)).tr),
               (runSteps loadMod ctx rest (i + 1)).ctx,
               (runSteps loadMod ctx rest (i + 1)).err⟩ := by
            simp [runSteps, hl, hf, hid]
          obtain ⟨n, hn, hdone, hwr, hres, hok, herr⟩ := ih (i + 1) ctx
          refine ⟨n + 1, by simpa using Nat.succ_le_succ hn, ?_, ?_, ?_, ?_, ?_⟩
          · rw [hstep]
            simp only [doneIdxs_cons, range'_succ_eq]
            simp [hdone]
          · rw [hstep]
            simp only [writesOf_cons]
            simp [hwr, List.filterMap_cons, hid]
          · rw [hstep]
            simp only [writesOf_cons]
            simpa using hres
          · rw [hstep]
            intro h
            obtain ⟨h1, h2⟩ := hok h
            refine ⟨by simp [h1], ?_⟩
            simp only [invokedIdxs_cons, range'_succ_eq]
            simp [h2]
          · rw [hstep]
            intro e h
            obtain ⟨h1, h2, h3⟩ := herr e h
            refine ⟨by simpa using Nat.succ_lt_succ h1, by simpa using h2, ?_⟩
            rcases h3 with h3 | h3
            · refine Or.inl ?_
              simp only [invokedIdxs_cons, range'_succ_eq]
              simp [h3]
            · refine Or.inr ?_
              simp only [invokedIdxs_cons, range'_succ_eq]
              simp [h3, range'_succ_eq]
        | some k =>
          have hstep : runSteps loadMod ctx (s :: rest) i =
              ⟨EngEvent.invoke i s.module :: EngEvent.write k v ::
                 EngEvent.stepDone i ::
                 (runSteps loadMod
                   { ctx with results := setResult ctx.results k v } rest
                   (i + 1)).tr,
               (runSteps loadMod
                 { ctx with results := setResult ctx.results k v } rest
                 (i + 1)).ctx,
               (runSteps loadMod
                 { ctx with results := setResult ctx.results k v } rest
                 (i + 1)).err⟩ := by
            simp [runSteps, hl, hf, hid]
          obtain ⟨n, hn, hdone, hwr, hres, hok, herr⟩ :=
            ih (i + 1) { ctx with results := setResult ctx.results k v }
          refine ⟨n + 1, by simpa using Nat.succ_le_succ hn, ?_, ?_, ?_, ?_, ?_⟩
          · rw [hstep]
            simp only [doneIdxs_cons, range'_succ_eq]
            simp [hdone]
          · rw [hstep]
            simp only [writesOf_cons]
            simp [hwr, List.filterMap_cons, hid]
          · rw [hstep]
            simp only [writesOf_cons]
            simpa using hres
          · rw [hstep]
            intro h
            obtain ⟨h1, h2⟩ := hok h
            refine ⟨by simp [h1], ?_⟩
            simp only [invokedIdxs_cons, range'_succ_eq]
            simp [h2]
          · rw [hstep]
            intro e h
            obtain ⟨h1, h2, h3⟩ := herr e h
            refine ⟨by simpa using Nat.succ_lt_succ h1, by simpa using h2, ?_⟩
            rcases h3 with h3 | h3
            · refine Or.inl ?_
              simp only [invokedIdxs_cons, range'_succ_eq]
              simp [h3]
            · refine Or.inr ?_
              simp only [invokedIdxs_cons, range'_succ_eq]
              simp [h3, range'_succ_eq]

theorem setResult_of_notMem {α : Type} (m : List (String × α)) (k : String)
    (v : α) (h : k ∉ m.map Prod.fst) : setResult m k v = m ++ [(k, v)] := by
  induction m with
  | nil => rfl
  | cons kv t iht =>
    simp only [List.map_cons, List.mem_cons] at h
    push_neg at h
    simp [setResult, Ne.symm h.1, iht h.2]

theorem foldl_setResult_append {α : Type} (ws : List (String × α)) :
    ∀ m : List (String × α), (ws.map Prod.fst).Nodup →
    (∀ k1 ∈ ws.map Prod.fst, k1 ∉ m.map Prod.fst) →
    ws.foldl (fun m2 kv => setResult m2 kv.1 kv.2) m = m ++ ws := by
  induction ws with
  | nil => intro m _ _; simp
  | cons kv t iht =>
    intro m hnd hdisj
    simp only [List.map_cons, List.nodup_cons] at hnd
    have hk : kv.1 ∉ m.map Prod.fst := hdisj kv.1 (by simp)
    have hset : setResult m kv.1 kv.2 = m ++ [(kv.1, kv.2)] :=
      setResult_of_notMem m kv.1 kv.2 hk
    have hdisj' : ∀ k1 ∈ t.map Prod.fst,
        k1 ∉ (setResult m kv.1 kv.2).map Prod.fst := by
      intro k1 hk1
      rw [hset]
      simp only [List.map_append, List.mem_append]
      push_neg
      refine ⟨hdisj k1 (by simp [hk1]), ?_⟩
      simp only [List.map_cons, List.map_nil, List.mem_singleton]
      intro hc
      exact hnd.1 (hc ▸ hk1)
    calc (kv :: t).foldl (fun m2 kv2 => setResult m2 kv2.1 kv2.2) m
        = t.foldl (fun m2 kv2 => setResult m2 kv2.1 kv2.2)
            (setResult m kv.1 kv.2) := by simp
      _ = setResult m kv.1 kv.2 ++ t := iht _ hnd.2 hdisj'
      _ = m ++ kv :: t := by rw [hset]; simp

/-- C1: `runPipeline` invokes the steps' modules strictly sequentially in
declaration order; a step's module is invoked only if every earlier step
completed successfully; if a step's module throws, the run fails with an
error message referencing the failing step and no later step's module is
ever invoked. -/
theorem c1_runPipeline_sequential_failfast {α : Type}
    (loadPipe : String → Option EngPipeline)
    (loadMod : String → Option (RunFn α)) (cwd : String)
    (env : List (String × String)) (startTime now : Nat) (id : String)
    (p : EngPipeline) (hp : loadPipe id = some p) :
    seqFailFast loadPipe loadMod cwd env startTime now id p := by
  obtain ⟨n, hn, hdone, hwr, hres, hok, herr⟩ :=
    runSteps_char loadMod p.steps 0 (mkCtx cwd env id startTime)
  refine ⟨n, hn, hdone, ?_, ?_, ?_⟩
  · cases he : (runSteps loadMod (mkCtx cwd env id startTime) p.steps 0).err
      with
    | none => exact Or.inl (hok he).2
    | some e => exact (herr e he).2.2
  · intro he
    refine ⟨?_, (hok he).1⟩
    simp [runPipeline, hp, he]
  · intro e he
    obtain ⟨h1, h2, h3⟩ := herr e he
    obtain ⟨msg, hmsg⟩ := h2
    refine ⟨h1, by simp [runPipeline, hp, he], ⟨msg, hmsg, by
      simp [hmsg, renderEngErr]⟩, ?_⟩
    intro j hj
    rcases h3 with h3 | h3
    · rw [h3] at hj
      have := List.mem_range'_1.mp hj
      omega
    · rw [h3] at hj
      have := List.mem_range'_1.mp hj
      omega

theorem c1_witness :
    seqFailFast c1Store c1Mods "" [] 0 5 "demo" c1Pipe :=
  c1_runPipeline_sequential_failfast c1Store c1Mods "" [] 0 5 "demo" c1Pipe
    (by decide)

/-- C2: the `results` mapping of the run context ends up with exactly one
entry per successfully completed named step (keyed by that step's id),
contains no entry for any step that did not run or did not succeed, and
each key is written at most once (given the data-model invariant that
step ids are unique within a pipeline). -/
theorem c2_results_one_entry_per_named_step {α : Type}
    (loadPipe : String → Option EngPipeline)
    (loadMod : String → Option (RunFn α)) (cwd : String)
    (env : List (String × String)) (startTime : Nat) (id : String)
    (p : EngPipeline) (hp : loadPipe id = some p)
    (hid : (p.steps.filterMap truthyId).Nodup) :
    resultsExact loadMod cwd env startTime id p := by
  obtain ⟨n, hn, hdone, hwr, hres, hok, herr⟩ :=
    runSteps_char loadMod p.steps 0 (mkCtx cwd env id startTime)
  have hsub : List.Sublist ((p.steps.take n).filterMap truthyId)
      (p.steps.filterMap truthyId) :=
    (List.take_sublist n p.steps).filterMap truthyId
  have hndws : ((writesOf
      (runSteps loadMod (mkCtx cwd env id startTime) p.steps 0).tr).map
        Prod.fst).Nodup := by
    rw [hwr]
    exact hid.sublist hsub
  have hresults :
      (runSteps loadMod (mkCtx cwd env id startTime) p.steps 0).ctx.results
        = writesOf
            (runSteps loadMod (mkCtx cwd env id startTime) p.steps 0).tr := by
    rw [hres]
    have := foldl_setResult_append
      (writesOf (runSteps loadMod (mkCtx cwd env id startTime) p.steps 0).tr)
      [] hndws (by intro k1 _; simp)
    simpa [mkCtx] using this
  refine ⟨n, hn, hdone, hresults, ?_, ?_, ?_⟩
  · rw [hresults, hwr]
  · rw [hresults]
    exact hndws
  · intro k1
    exact List.nodup_iff_count_le_one.mp hndws k1

theorem c2_witness : resultsExact c2Mods "" [] 0 "d2" c2Pipe :=
  c2_results_one_entry_per_named_step c2Store c2Mods "" [] 0 "d2" c2Pipe
    (by decide) (by decide)

/-! ## Claim C10 -/

/-- C10: `loadModule` is total (it never throws — its codomain is an
`Option` and every failure path lands in the `catch`): it returns `null`
exactly when the dynamic import throws (file missing, import error) or
the imported module lacks a callable `run` export; and the engine
surfaces a step whose module loaded as `null` — either failure mode —
with the same wrapped failure whose message says the module was not
found, invoking nothing and never reaching later steps. -/
theorem c10_loadModule_null_on_all_failures {α : Type}
    (importFn : String → ImportOut α) (name : String) (s : EngStep)
    (rest : List EngStep) (i : Nat) (ctx : EngCtx α) :
    (loadModule importFn name = none ↔
      (∃ m, importFn name = .err m) ∨ importFn name = .ok none) ∧
    (loadModule importFn s.module = none →
      runSteps (loadModule importFn) ctx (s :: rest) i =
        ⟨[], ctx, some (.stepFailed (stepDisplayName s)
          ("Module \x27" ++ s.module ++ "\x27 not found"))⟩) := by
  constructor
  · constructor
    · intro h
      cases him : importFn name with
      | err m => exact Or.inl ⟨m, rfl⟩
      | ok run? =>
        cases run? with
        | none => exact Or.inr rfl
        | some f => simp [loadModule, him] at h
    · intro h
      rcases h with ⟨m, hm⟩ | hm <;> simp [loadModule, hm]
  · intro h
    simp [runSteps, h]

theorem c10_witness :
    runSteps (loadModule c10ImportErr) c10Ctx [c10Step] 0 =
      ⟨[], c10Ctx, some (.stepFailed (stepDisplayName c10Step)
        ("Module \x27" ++ c10Step.module ++ "\x27 not found"))⟩ ∧
    runSteps (loadModule c10ImportNoRun) c10Ctx [c10Step] 0 =
      ⟨[], c10Ctx, some (.stepFailed (stepDisplayName c10Step)
        ("Module \x27" ++ c10Step.module ++ "\x27 not found"))⟩ :=
  ⟨(c10_loadModule_null_on_all_failures c10ImportErr "mm" c10Step [] 0
      c10Ctx).2 rfl,
   (c10_loadModule_null_on_all_failures c10ImportNoRun "mm" c10Step [] 0
      c10Ctx).2 rfl⟩

/-! ## Scheduler lemmas -/

theorem recordKey_no_drop (st : List (String × Nat)) (key : String)
    (nowMs : Nat) (h : st.length + 1 ≤ 100) :
    recordKey st key nowMs = st ++ [(key, nowMs)] := by
  have h' : ¬ (st ++ [(key, nowMs)]).length > 100 := by
    simp only [List.length_append, List.length_cons, List.length_nil]
    omega
  simp only [recordKey]
  rw [if_neg h']

theorem recordKey_len (st : List (String × Nat)) (key : String)
    (nowMs : Nat) : (recordKey st key nowMs).length ≤ st.length + 1 := by
  simp only [recordKey]
  split
  · simp only [List.length_drop, List.length_append, List.length_cons,
      List.length_nil]
    omega
  · simp only [List.length_append, List.length_cons, List.length_nil]
    omega

theorem tick_state_len (prevFn : String → Nat → Option Nat) (now : Nat) :
    ∀ (ps : List SPipe) (st : List (String × Nat)),
    (tick prevFn now ps st).1.length ≤ st.length + ps.length := by
  intro ps
  induction ps with
  | nil => intro st; simp [tick]
  | cons p ps ihp =>
    intro st
    have hcons : st.length + (p :: ps).length = st.length + ps.length + 1 := by
      simp only [List.length_cons]; omega
    rw [hcons]
    simp only [tick]
    cases p.schedule with
    | none => exact le_trans (ihp st) (by omega)
    | some sch =>
      by_cases hs : sch = ""
      · simp only [hs, if_pos rfl]
        exact le_trans (ihp st) (by omega)
      · simp only [if_neg hs]
        cases prevFn sch now with
        | none => exact le_trans (ihp st) (by omega)
        | some t =>
          by_cases hw : ((now : Int) - (t : Int) < 70000 ∧
              0 ≤ (now : Int) - (t : Int))
          · simp only [if_pos hw]
            by_cases hc : keyOf p.id t ∈ st.map Prod.fst
            · simp only [if_pos hc]
              exact le_trans (ihp st) (by omega)
            · simp only [if_neg hc]
              refine le_trans (ihp (recordKey st (keyOf p.id t) now)) ?_
              have := recordKey_len st (keyOf p.id t) now
              omega
          · simp only [if_neg hw]
            exact le_trans (ihp st) (by omega)

theorem tick_mem_mono (prevFn : String → Nat → Option Nat) (now : Nat) :
    ∀ (ps : List SPipe) (st : List (String × Nat)) (k : String),
    st.length + ps.length ≤ 100 → k ∈ st.map Prod.fst →
    k ∈ (tick prevFn now ps st).1.map Prod.fst := by
  intro ps
  induction ps with
  | nil => intro st k _ hk; simpa [tick] using hk
  | cons p ps ihp =>
    intro st k hb hk
    have hb' : st.length + ps.length ≤ 100 := by
      simp only [List.length_cons] at hb; omega
    simp only [tick]
    cases p.schedule with
    | none => exact ihp st k hb' hk
    | some sch =>
      by_cases hs : sch = ""
      · simp only [hs, if_pos rfl]; exact ihp st k hb' hk
      · simp only [if_neg hs]
        cases prevFn sch now with
        | none => exact ihp st k hb' hk
        | some t =>
          by_cases hw : ((now : Int) - (t : Int) < 70000 ∧
              0 ≤ (now : Int) - (t : Int))
          · simp only [if_pos hw]
            by_cases hc : keyOf p.id t ∈ st.map Prod.fst
            · simp only [if_pos hc]; exact ihp st k hb' hk
            · simp only [if_neg hc]
              have hrec : recordKey st (keyOf p.id t) now
                  = st ++ [(keyOf p.id t, now)] :=
                recordKey_no_drop st (keyOf p.id t) now (by
                  simp only [List.length_cons] at hb; omega)
              have hb2 : (recordKey st (keyOf p.id t) now).length + ps.length
                  ≤ 100 := by
                rw [hrec]
                simp only [List.length_append, List.length_cons,
                  List.length_nil]
                simp only [List.length_cons] at hb
                omega
              have hk2 : k ∈ (recordKey st (keyOf p.id t) now).map Prod.fst :=
                by rw [hrec]; simp [hk]
              exact ihp _ k hb2 hk2
          · simp only [if_neg hw]; exact ihp st k hb' hk

theorem tick_no_retrigger (prevFn : String → Nat → Option Nat) (now : Nat) :
    ∀ (ps : List SPipe) (st : List (String × Nat)) (pid : String) (t : Nat),
    st.length + ps.length ≤ 100 → keyOf pid t ∈ st.map Prod.fst →
    (pid, t) ∉ (tick prevFn now ps st).2 := by
  intro ps
  induction ps with
  | nil => intro st pid t _ _; simp [tick]
  | cons p ps ihp =>
    intro st pid t hb hk
    have hb' : st.length + ps.length ≤ 100 := by
      simp only [List.length_cons] at hb; omega
    simp only [tick]
    cases p.schedule with
    | none => exact ihp st pid t hb' hk
    | some sch =>
      by_cases hs : sch = ""
      · simp only [hs, if_pos rfl]; exact ihp st pid t hb' hk
      · simp only [if_neg hs]
        cases prevFn sch now with
        | none => exact ihp st pid t hb' hk
        | some t0 =>
          by_cases hw : ((now : Int) - (t0 : Int) < 70000 ∧
              0 ≤ (now : Int) - (t0 : Int))
          · simp only [if_pos hw]
            by_cases hc : keyOf p.id t0 ∈ st.map Prod.fst
            · simp only [if_pos hc]; exact ihp st pid t hb' hk
            · simp only [if_neg hc]
              intro hmem
              simp only [List.mem_cons] at hmem
              rcases hmem with heq | hmem
              · rw [Prod.mk.injEq] at heq
                rw [heq.1, heq.2] at hk
                exact hc hk
              · have hrec : recordKey st (keyOf p.id t0) now
                    = st ++ [(keyOf p.id t0, now)] :=
                  recordKey_no_drop st (keyOf p.id t0) now (by
                    simp only [List.length_cons] at hb; omega)
                have hb2 : (recordKey st (keyOf p.id t0) now).length
                    + ps.length ≤ 100 := by
                  rw [hrec]
                  simp only [List.length_append, List.length_cons,
                    List.length_nil]
                  simp only [List.length_cons] at hb
                  omega
                have hk2 : keyOf pid t
                    ∈ (recordKey st (keyOf p.id t0) now).map Prod.fst := by
                  rw [hrec]; simp [hk]
                exact ihp _ pid t hb2 hk2 hmem
          · simp only [if_neg hw]; exact ihp st pid t hb' hk

theorem tick_triggered_key_recorded (prevFn : String → Nat → Option Nat)
    (now : Nat) :
    ∀ (ps : List SPipe) (st : List (String × Nat)) (pid : String) (t : Nat),
    st.length + ps.length ≤ 100 → (pid, t) ∈ (tick prevFn now ps st).2 →
    keyOf pid t ∈ (tick prevFn now ps st).1.map Prod.fst := by
  intro ps
  induction ps with
  | nil => intro st pid t _ h; simp [tick] at h
  | cons p ps ihp =>
    intro st pid t hb htrig
    have hb' : st.length + ps.length ≤ 100 := by
      simp only [List.length_cons] at hb; omega
    simp only [tick] at htrig ⊢
    cases hsch : p.schedule with
    | none => simp only [hsch] at htrig ⊢; exact ihp st pid t hb' htrig
    | some sch =>
      simp only [hsch] at htrig ⊢
      by_cases hs : sch = ""
      · simp only [hs, if_pos rfl] at htrig ⊢; exact ihp st pid t hb' htrig
      · simp only [if_neg hs] at htrig ⊢
        cases hprev : prevFn sch now with
        | none => simp only [hprev] at htrig ⊢; exact ihp st pid t hb' htrig
        | some t0 =>
          simp only [hprev] at htrig ⊢
          by_cases hw : ((now : Int) - (t0 : Int) < 70000 ∧
              0 ≤ (now : Int) - (t0 : Int))
          · simp only [if_pos hw] at htrig ⊢
            by_cases hc : keyOf p.id t0 ∈ st.map Prod.fst
            · simp only [if_pos hc] at htrig ⊢
              exact ihp st pid t hb' htrig
            · simp only [if_neg hc] at htrig ⊢
              have hrec : recordKey st (keyOf p.id t0) now
                  = st ++ [(keyOf p.id t0, now)] :=
                recordKey_no_drop st (keyOf p.id t0) now (by
                  simp only [List.length_cons] at hb; omega)
              have hb2 : (recordKey st (keyOf p.id t0) now).length
                  + ps.length ≤ 100 := by
                rw [hrec]
                simp only [List.length_append, List.length_cons,
                  List.length_nil]
                simp only [List.length_cons] at hb
                omega
              simp only [List.mem_cons] at htrig
              rcases htrig with heq | htrig
              · rw [Prod.mk.injEq] at heq
                have hk2 : keyOf pid t
                    ∈ (recordKey st (keyOf p.id t0) now).map Prod.fst := by
                  rw [hrec, heq.1, heq.2]; simp
                exact tick_mem_mono prevFn now ps _ _ hb2 hk2
              · exact ihp _ pid t hb2 htrig
          · simp only [if_neg hw] at htrig ⊢
            exact ihp st pid t hb' htrig

theorem tick_triggered_window (prevFn : String → Nat → Option Nat)
    (now : Nat) :
    ∀ (ps : List SPipe) (st : List (String × Nat)) (pid : String) (t : Nat),
    (pid, t) ∈ (tick prevFn now ps st).2 →
    ∃ p ∈ ps, p.id = pid ∧
      (∃ sch, p.schedule = some sch ∧ sch ≠ "" ∧ prevFn sch now = some t) ∧
      (now : Int) - (t : Int) < 70000 ∧ 0 ≤ (now : Int) - (t : Int) := by
  intro ps
  induction ps with
  | nil => intro st pid t h; simp [tick] at h
  | cons p ps ihp =>
    intro st pid t htrig
    simp only [tick] at htrig
    cases hsch : p.schedule with
    | none =>
      simp only [hsch] at htrig
      obtain ⟨q, hq, hrest⟩ := ihp st pid t htrig
      exact ⟨q, List.mem_cons_of_mem p hq, hrest⟩
    | some sch =>
      simp only [hsch] at htrig
      by_cases hs : sch = ""
      · simp only [hs, if_pos rfl] at htrig
        obtain ⟨q, hq, hrest⟩ := ihp st pid t htrig
        exact ⟨q, List.mem_cons_of_mem p hq, hrest⟩
      · simp only [if_neg hs] at htrig
        cases hprev : prevFn sch now with
        | none =>
          simp only [hprev] at htrig
          obtain ⟨q, hq, hrest⟩ := ihp st pid t htrig
          exact ⟨q, List.mem_cons_of_mem p hq, hrest⟩
        | some t0 =>
          simp only [hprev] at htrig
          by_cases hw : ((now : Int) - (t0 : Int) < 70000 ∧
              0 ≤ (now : Int) - (t0 : Int))
          · simp only [if_pos hw] at htrig
            by_cases hc : keyOf p.id t0 ∈ st.map Prod.fst
            · simp only [if_pos hc] at htrig
              obtain ⟨q, hq, hrest⟩ := ihp st pid t htrig
              exact ⟨q, List.mem_cons_of_mem p hq, hrest⟩
            · simp only [if_neg hc] at htrig
              simp only [List.mem_cons] at htrig
              rcases htrig with heq | htrig
              · rw [Prod.mk.injEq] at heq
                refine ⟨p, List.mem_cons_self p ps, heq.1.symm,
                  ⟨sch, hsch, hs, ?_⟩, ?_, ?_⟩
                · rw [hprev, heq.2]
                · rw [← heq.2] at hw; exact hw.1
                · rw [← heq.2] at hw; exact hw.2
              · obtain ⟨q, hq, hrest⟩ := ihp _ pid t htrig
                exact ⟨q, List.mem_cons_of_mem p hq, hrest⟩
          · simp only [if_neg hw] at htrig
            obtain ⟨q, hq, hrest⟩ := ihp st pid t htrig
            exact ⟨q, List.mem_cons_of_mem p hq, hrest⟩

set_option maxRecDepth 100000 in
/-- C7 counterexample: with 101 schedulable pipelines, the trigger for
pipeline `"0"` at scheduled instant `0` fires in a tick at `now = 5000`,
its key is immediately evicted by the 100-entry cap while the remaining
pipelines trigger, and a second tick at `now = 50000` — within the same
minute of the same scheduled instant — triggers pipeline `"0"` for
instant `0` a second time. -/
theorem c7_counterexample :
    ("0", 0) ∈ (tick c7Prev 5000 c7Pipes []).2 ∧
    ("0", 0) ∈ (tick c7Prev 50000 c7Pipes (tick c7Prev 5000 c7Pipes []).1).2
    := by decide

/-- C7 (amended): a tick triggers `(p, t)` only when the scheduled instant
is within the 70-second trailing window of "now" (and the schedule is
present, non-empty and evaluable), and the key is recorded upon
triggering, so a second tick within the same minute never triggers a
second run for the same scheduled instant — provided the key has not been
evicted by the 100-entry cap in the meantime, which is guaranteed
whenever the key set plus two ticks' worth of pipelines stays within the
cap. -/
theorem c7_tick_dedup_within_cap (prevFn : String → Nat → Option Nat)
    (ps : List SPipe) (now1 now2 : Nat) (st : List (String × Nat))
    (pid : String) (t : Nat)
    (hbound : st.length + ps.length + ps.length ≤ 100)
    (h1 : (pid, t) ∈ (tick prevFn now1 ps st).2) :
    (∃ p ∈ ps, p.id = pid ∧
      (∃ sch, p.schedule = some sch ∧ sch ≠ "" ∧ prevFn sch now1 = some t) ∧
      (now1 : Int) - (t : Int) < 70000 ∧ 0 ≤ (now1 : Int) - (t : Int)) ∧
    (pid, t) ∉ (tick prevFn now2 ps (tick prevFn now1 ps st).1).2 := by
  have hb1 : st.length + ps.length ≤ 100 := by omega
  have hkey := tick_triggered_key_recorded prevFn now1 ps st pid t hb1 h1
  have hlen := tick_state_len prevFn now1 ps st
  have hb2 : (tick prevFn now1 ps st).1.length + ps.length ≤ 100 := by omega
  exact ⟨tick_triggered_window prevFn now1 ps st pid t h1,
    tick_no_retrigger prevFn now2 ps _ pid t hb2 hkey⟩

theorem c7_witness :
    (∃ p ∈ c7wPipes, p.id = "a" ∧
      (∃ sch, p.schedule = some sch ∧ sch ≠ "" ∧
        c7Prev sch 5000 = some 0) ∧
      (5000 : Int) - (0 : Nat) < 70000 ∧ 0 ≤ (5000 : Int) - (0 : Nat)) ∧
    ("a", 0) ∉ (tick c7Prev 50000 c7wPipes (tick c7Prev 5000 c7wPipes []).1).2
    :=
  c7_tick_dedup_within_cap c7Prev c7wPipes 5000 50000 [] "a" 0 (by decide)
    (by decide)

/-! ## Claim C8 -/

theorem recordKey_cap (st : List (String × Nat)) (k : String) (v : Nat)
    (h : st.length ≤ 100) : (recordKey st k v).length ≤ 100 := by
  simp only [recordKey]
  split
  · simp only [List.length_drop, List.length_append, List.length_cons,
      List.length_nil]
    omega
  · next hgt =>
    simp only [List.length_append, List.length_cons, List.length_nil] at hgt ⊢
    omega

theorem tick_cap (prevFn : String → Nat → Option Nat) (now : Nat) :
    ∀ (ps : List SPipe) (st : List (String × Nat)),
    st.length ≤ 100 → (tick prevFn now ps st).1.length ≤ 100 := by
  intro ps
  induction ps with
  | nil => intro st h; simpa [tick] using h
  | cons p ps ihp =>
    intro st h
    simp only [tick]
    cases p.schedule with
    | none => exact ihp st h
    | some sch =>
      by_cases hs : sch = ""
      · simp only [hs, if_pos rfl]; exact ihp st h
      · simp only [if_neg hs]
        cases prevFn sch now with
        | none => exact ihp st h
        | some t =>
          by_cases hw : ((now : Int) - (t : Int) < 70000 ∧
              0 ≤ (now : Int) - (t : Int))
          · simp only [if_pos hw]
            by_cases hc : keyOf p.id t ∈ st.map Prod.fst
            · simp only [if_pos hc]; exact ihp st h
            · simp only [if_neg hc]
              exact ihp _ (recordKey_cap st (keyOf p.id t) now h)
          · simp only [if_neg hw]; exact ihp st h

theorem applyTicks_cap :
    ∀ (seq : List ((String → Nat → Option Nat) × List SPipe × Nat))
    (st : List (String × Nat)),
    st.length ≤ 100 → (applyTicks seq st).length ≤ 100 := by
  intro seq
  induction seq with
  | nil => intro st h; simpa [applyTicks] using h
  | cons inp rest ihs =>
    intro st h
    simp only [applyTicks]
    exact ihs _ (tick_cap inp.1 inp.2.2 inp.2.1 st h)

/-- C8: the trigger-key set stays bounded. Recording a key into a set at
or below the cap keeps it at or below the cap; recording into a full set
(at or above 100 entries) evicts the oldest-inserted entry; and along any
sequence of ticks from an empty set, the set's size never exceeds 101
(indeed never exceeds 100 between operations). -/
theorem c8_trigger_set_bounded :
    (∀ (st : List (String × Nat)) (k : String) (v : Nat),
      st.length ≤ 100 → (recordKey st k v).length ≤ 100) ∧
    (∀ (st : List (String × Nat)) (k : String) (v : Nat),
      100 ≤ st.length → recordKey st k v = (st ++ [(k, v)]).drop 1) ∧
    (∀ seq : List ((String → Nat → Option Nat) × List SPipe × Nat),
      (applyTicks seq []).length ≤ 101) := by
  refine ⟨recordKey_cap, ?_, ?_⟩
  · intro st k v h
    have h' : (st ++ [(k, v)]).length > 100 := by
      simp only [List.length_append, List.length_cons, List.length_nil]
      omega
    simp only [recordKey]
    rw [if_pos h']
  · intro seq
    have := applyTicks_cap seq [] (by simp)
    omega

theorem c8_witness :
    (recordKey [] ("k") 0).length ≤ 100 ∧
    recordKey c8Full ("k") 0 = (c8Full ++ [("k", 0)]).drop 1 ∧
    (applyTicks [] []).length ≤ 101 :=
  ⟨c8_trigger_set_bounded.1 [] ("k") 0 (by decide),
   c8_trigger_set_bounded.2.1 c8Full ("k") 0 (by decide),
   c8_trigger_set_bounded.2.2 []⟩

/-- C9 counterexample: with listeners `[1, 2]` subscribed in that order
and listener 1 throwing, `publish` delivers only to listener 1, never
reaches listener 2, and the exception propagates to the publisher —
refuting the claim that a throwing listener neither prevents delivery to
the remaining listeners nor propagates. -/
theorem c9_counterexample :
    publishTo c9BadBehav () (subscribeL (subscribeL [] 1) 2) = ([1], some ())
    ∧ (2 : Nat) ∉ (publishTo c9BadBehav () (subscribeL (subscribeL [] 1) 2)).1
    ∧ (publishTo c9BadBehav () (subscribeL (subscribeL [] 1) 2)).2 ≠ none :=
  by decide

theorem publishTo_all_ok {L E Er : Type} (behav : L → E → Except Er Unit)
    (e : E) : ∀ ls : List L, (∀ l ∈ ls, behav l e = .ok ()) →
    publishTo behav e ls = (ls, none) := by
  intro ls
  induction ls with
  | nil => intro _; rfl
  | cons l ls ih =>
    intro h
    have hl : behav l e = .ok () := h l (by simp)
    simp only [publishTo, hl]
    have := ih fun x hx => h x (by simp [hx])
    simp [this]

theorem publishTo_abort {L E Er : Type} (behav : L → E → Except Er Unit)
    (e : E) : ∀ (pre : List L) (l : L) (post : List L) (er : Er),
    (∀ x ∈ pre, behav x e = .ok ()) → behav l e = .error er →
    publishTo behav e (pre ++ l :: post) = (pre ++ [l], some er) := by
  intro pre
  induction pre with
  | nil =>
    intro l post er _ hl
    simp only [List.nil_append, publishTo, hl]
  | cons x pre ihp =>
    intro l post er hok hl
    have hx : behav x e = .ok () := hok x (by simp)
    simp only [List.cons_append, publishTo, hx]
    have := ihp l post er (fun y hy => hok y (by simp [hy])) hl
    simp [this]

/-- C9 (amended): `publish` delivers the event synchronously to the
registered listeners in subscription order; when no listener throws it
reaches all of them and nothing propagates, but a listener that throws
aborts delivery to the remaining listeners and its exception propagates
to the publisher. -/
theorem c9_publish_order_and_abort {L E Er : Type}
    (behav : L → E → Except Er Unit) (e : E) (ls : List L) :
    ((∀ l ∈ ls, behav l e = .ok ()) → publishTo behav e ls = (ls, none)) ∧
    (∀ (pre post : List L) (l : L) (er : Er), ls = pre ++ l :: post →
      (∀ x ∈ pre, behav x e = .ok ()) → behav l e = .error er →
      publishTo behav e ls = (pre ++ [l], some er)) := by
  refine ⟨publishTo_all_ok behav e ls, ?_⟩
  intro pre post l er hls hok hl
  rw [hls]
  exact publishTo_abort behav e pre l post er hok hl

theorem c9_witness :
    publishTo c9GoodBehav () (subscribeL (subscribeL [] 1) 2) = ([1, 2], none)
    :=
  (c9_publish_order_and_abort c9GoodBehav () (subscribeL (subscribeL [] 1) 2)
    ).1 fun _ _ => rfl

/-! ## Orchestrator lemmas (spec model) -/

theorem totalSlots_cons (st : List MStep) (rest : List (List MStep)) :
    totalSlots (st :: rest) = st.length + totalSlots rest := by
  simp [totalSlots]

theorem mem_ordIdxs (σ : List Nat) (n j : Nat) (h : j < n) :
    j ∈ ordIdxs σ n := by
  simp only [ordIdxs]
  by_cases hg : j ∈ (σ.filter fun j2 => decide (j2 < n)).dedup
  · exact List.mem_append_left _ hg
  · refine List.mem_append_right _ ?_
    refine List.mem_filter.mpr ⟨List.mem_range.mpr h, ?_⟩
    exact decide_eq_true hg

theorem execStage_no_finishRun (behav : MStep → Except String Unit)
    (cancelAt : Option Nat) (base : Nat) (stage : List MStep) (σ : List Nat) :
    ∀ cP ∈ (execStage behav cancelAt base stage σ).2.1,
      isFinishRun cP = false := by
  intro cP hc
  simp only [execStage] at hc
  rcases List.mem_append.mp hc with h | h
  · obtain ⟨s, _, rfl⟩ := List.mem_map.mp h
    rfl
  · obtain ⟨j, _, rfl⟩ := List.mem_map.mp h
    rfl

theorem execStages_no_finishRun (behav : MStep → Except String Unit)
    (cancelAt : Option Nat) :
    ∀ (stages : List (List MStep)) (base : Nat) (σs : List (List Nat)),
    ∀ cP ∈ (execStages behav cancelAt stages base σs).2.1,
      isFinishRun cP = false := by
  intro stages
  induction stages with
  | nil => intro base σs cP hc; simp [execStages] at hc
  | cons st rest ihs =>
    intro base σs cP hc
    simp only [execStages] at hc
    by_cases hcancel : ((execStage behav cancelAt base st (σs.headD [])
        ).2.2.any fun o => decide (o = SOut.cancelled)) = true
    · rw [if_pos hcancel] at hc
      exact execStage_no_finishRun behav cancelAt base st (σs.headD []) cP hc
    · rw [if_neg hcancel] at hc
      cases hff : firstFail st (execStage behav cancelAt base st
          (σs.headD [])).2.2 with
      | some nm =>
        rw [hff] at hc
        exact execStage_no_finishRun behav cancelAt base st (σs.headD []) cP hc
      | none =>
        rw [hff] at hc
        rcases List.mem_append.mp hc with h | h
        · exact execStage_no_finishRun behav cancelAt base st (σs.headD [])
            cP h
        · exact ihs (base + st.length) σs.tail cP h

theorem execute_finishRun_char (behav : MStep → Except String Unit)
    (cancelAt : Option Nat) (p : MPipeline) (runId : String) (dur : Nat)
    (σs : List (List Nat)) :
    ((execute behav cancelAt p runId dur σs).2.1).filter isFinishRun
      = [PCall.finishRun
          (statusOf (execute behav cancelAt p runId dur σs).2.2)
          (renderLogM (execute behav cancelAt p runId dur σs).1) dur] := by
  have h1 : (execStages behav cancelAt (planOf p) 0 σs).2.1.filter isFinishRun
      = [] := by
    rw [List.filter_eq_nil_iff]
    intro a ha
    simp [execStages_no_finishRun behav cancelAt (planOf p) 0 σs a ha]
  simp [execute, List.filter_append, List.filter_cons, isFinishRun, h1]

theorem execStages_cancelled (behav : MStep → Except String Unit) (c : Nat)
    (hB : ∀ s, behav s = Except.ok ()) :
    ∀ (stages : List (List MStep)) (base : Nat) (σs : List (List Nat)),
    base ≤ c → c < base + totalSlots stages →
    (execStages behav (some c) stages base σs).2.2 = RunRes.cancelled := by
  intro stages
  induction stages with
  | nil =>
    intro base σs hbc hlt
    simp only [totalSlots, List.map_nil, List.sum_nil] at hlt
    omega
  | cons st rest ihs =>
    intro base σs hbc hlt
    rw [totalSlots_cons] at hlt
    simp only [execStages]
    by_cases hcs : c < base + st.length
    · have hj : c - base < st.length := by omega
      have houtmem : SOut.cancelled
          ∈ (execStage behav (some c) base st (σs.headD [])).2.2 := by
        simp only [execStage]
        refine List.mem_map.mpr ⟨c - base, List.mem_range.mpr hj, ?_⟩
        simp only [stepOut]
        rw [if_pos (by omega : c ≤ base + (c - base))]
      have hany : ((execStage behav (some c) base st (σs.headD [])
          ).2.2.any fun o => decide (o = SOut.cancelled)) = true :=
        List.any_eq_true.mpr ⟨SOut.cancelled, houtmem, by simp⟩
      rw [if_pos hany]
    · have hok : ∀ o ∈ (execStage behav (some c) base st (σs.headD [])).2.2,
          o = SOut.ok := by
        intro o ho
        simp only [execStage] at ho
        obtain ⟨j, hjm, rfl⟩ := List.mem_map.mp ho
        have hjlt := List.mem_range.mp hjm
        simp only [stepOut]
        rw [if_neg (by omega : ¬ c ≤ base + j)]
        rw [hB]
      have hany : ((execStage behav (some c) base st (σs.headD [])
          ).2.2.any fun o => decide (o = SOut.cancelled)) = false := by
        rw [List.any_eq_false]
        intro o ho
        rw [hok o ho]
        simp
      rw [if_neg (by rw [hany]; simp)]
      have hff : firstFail st
          (execStage behav (some c) base st (σs.headD [])).2.2 = none := by
        simp only [firstFail]
        rw [List.findSome?_eq_none_iff]
        intro pr hpr
        have hmem : pr.2 ∈ (execStage behav (some c) base st (σs.headD [])
            ).2.2 := (List.of_mem_zip hpr).2
        rw [hok pr.2 hmem]
      rw [hff]
      refine ihs (base + st.length) σs.tail (by omega) (by omega)

/-! ## Claim C3 -/

/-- C3: a completed `runPipeline` call returns a `RunOutcome` record with
the fields `success`, `duration`, `runId` and `workDir` (populated from
the run); an id that resolves to no pipeline fails with
`PipelineNotFound`; otherwise the call can fail only with a wrapped step
failure. Status: spec-modelled — the engine revision returning this
outcome is not among the sources; only its client-side declaration
(`RunResult`) and the spec describe it. -/
theorem c3_runPipeline_outcome_contract
    (store : String → Option MPipeline) (behav : MStep → Except String Unit)
    (cancelAt : Option Nat) (id runId workDir : String) (dur : Nat)
    (σs : List (List Nat)) :
    (store id = none →
      (runPipelineFull store behav cancelAt id runId workDir dur σs).2.2
        = .error (.pipelineNotFound id)) ∧
    (∀ p, store id = some p →
      (∃ o : MOutcome,
        (runPipelineFull store behav cancelAt id runId workDir dur σs).2.2
          = .ok o ∧
        o.duration = dur ∧ o.runId = runId ∧ o.workDir = workDir) ∨
      (∃ n m,
        (runPipelineFull store behav cancelAt id runId workDir dur σs).2.2
          = .error (.stepFailure n m))) := by
  constructor
  · intro h
    simp [runPipelineFull, h]
  · intro p hp
    simp only [runPipelineFull, hp]
    cases hr : (execute behav cancelAt p runId dur σs).2.2 with
    | success =>
      exact Or.inl ⟨⟨true, dur, runId, workDir⟩, by simp [hr], rfl, rfl, rfl⟩
    | cancelled =>
      exact Or.inl ⟨⟨false, dur, runId, workDir⟩, by simp [hr], rfl, rfl, rfl⟩
    | failed n m => exact Or.inr ⟨n, m, by simp [hr]⟩

theorem c3_witness :
    (runPipelineFull c3Store c3Behav none ("nope") ("r1") ("wd") 12 []).2.2
      = .error (.pipelineNotFound ("nope")) :=
  (c3_runPipeline_outcome_contract c3Store c3Behav none ("nope") ("r1")
    ("wd") 12 []).1 (by decide)

/-! ## Claim C4 -/

/-- C4: every run that reaches a terminal outcome — success, step
failure, or cancellation, for any module behavior, any cancellation
instant and any sibling completion order — makes exactly one `finishRun`
persistence call, recording the run's terminal status, its accumulated
log and its duration; hence no run is left permanently `running` by the
engine. Status: spec-modelled — the orchestrator making these calls is
not among the sources; only its persistence port (`logger.ts`) is. -/
theorem c4_finishRun_on_every_terminal_outcome
    (behav : MStep → Except String Unit) (cancelAt : Option Nat)
    (p : MPipeline) (runId : String) (dur : Nat) (σs : List (List Nat)) :
    ((execute behav cancelAt p runId dur σs).2.1).filter isFinishRun
      = [PCall.finishRun
          (statusOf (execute behav cancelAt p runId dur σs).2.2)
          (renderLogM (execute behav cancelAt p runId dur σs).1) dur] :=
  execute_finishRun_char behav cancelAt p runId dur σs

/-! ## Claim C5 -/

/-- C5: for a parallel stage, all steps are dispatched concurrently —
every `step-start` event of the stage is published before any `step-end`
event, for every sibling completion order — and the orchestrator awaits
all of them: every step's start and end events are present. -/
theorem c5_stage_starts_before_ends (behav : MStep → Except String Unit)
    (cancelAt : Option Nat) (base : Nat) (stage : List MStep)
    (σ : List Nat) :
    (∀ (i j : Nat) (n m : String) (ok : Bool),
      (execStage behav cancelAt base stage σ).1.get? i
        = some (MEvent.stepStart n) →
      (execStage behav cancelAt base stage σ).1.get? j
        = some (MEvent.stepEnd m ok) →
      i < j) ∧
    (∀ s ∈ stage,
      MEvent.stepStart s.name ∈ (execStage behav cancelAt base stage σ).1) ∧
    (∀ j, j < stage.length →
      MEvent.stepEnd (stage.getD j default).name
        (decide (stepOut behav cancelAt (base + j) (stage.getD j default)
          = SOut.ok))
        ∈ (execStage behav cancelAt base stage σ).1) := by
  refine ⟨?_, ?_, ?_⟩
  · intro i j n m ok hi hj
    have hilt : i < (stage.map fun s => MEvent.stepStart s.name).length := by
      by_contra hge
      push_neg at hge
      rw [show (execStage behav cancelAt base stage σ).1
          = (stage.map fun s => MEvent.stepStart s.name)
            ++ ((ordIdxs σ stage.length).map fun j2 =>
              MEvent.stepEnd (stage.getD j2 default).name
                (decide (stepOut behav cancelAt (base + j2)
                  (stage.getD j2 default) = SOut.ok))) from rfl] at hi
      rw [List.get?_append_right hge] at hi
      have hmem := List.get?_mem hi
      obtain ⟨j2, _, hj2⟩ := List.mem_map.mp hmem
      exact MEvent.noConfusion hj2
    have hjge : (stage.map fun s => MEvent.stepStart s.name).length ≤ j := by
      by_contra hlt
      push_neg at hlt
      rw [show (execStage behav cancelAt base stage σ).1
          = (stage.map fun s => MEvent.stepStart s.name)
            ++ ((ordIdxs σ stage.length).map fun j2 =>
              MEvent.stepEnd (stage.getD j2 default).name
                (decide (stepOut behav cancelAt (base + j2)
                  (stage.getD j2 default) = SOut.ok))) from rfl] at hj
      rw [List.get?_append hlt] at hj
      have hmem := List.get?_mem hj
      obtain ⟨s, _, hs⟩ := List.mem_map.mp hmem
      exact MEvent.noConfusion hs
    omega
  · intro s hs
    simp only [execStage]
    exact List.mem_append_left _ (List.mem_map.mpr ⟨s, hs, rfl⟩)
  · intro j hjlt
    simp only [execStage]
    refine List.mem_append_right _ ?_
    exact List.mem_map.mpr ⟨j, mem_ordIdxs σ stage.length j hjlt, rfl⟩

theorem c5_witness :
    MEvent.stepStart ("C") ∈ (execStage c5Behav none 0 c5Stage [1, 0]).1 ∧
    (0 : Nat) < 2 :=
  ⟨(c5_stage_starts_before_ends c5Behav none 0 c5Stage [1, 0]).2.1
      ⟨"C", "m1"⟩ (by decide),
   (c5_stage_starts_before_ends c5Behav none 0 c5Stage [1, 0]).1 0 2 ("C")
      ("D") true (by decide) (by decide)⟩

/-! ## Claim C6 -/

/-- C6: a stop request mid-run (the cancellation token signalled before
slot `c`, with `c` inside the plan, every in-flight module observing the
token cooperatively, and no module failure) makes the run finalize as
`cancelled` — a status distinct from `fail` — and `finishRun` records
`cancelled`. Status: spec-modelled — the engine honoring `stopPipeline`
is not among the sources; only the client endpoint (`api.ts`) is. -/
theorem c6_stop_finalizes_cancelled_not_fail
    (behav : MStep → Except String Unit) (p : MPipeline) (c : Nat)
    (runId : String) (dur : Nat) (σs : List (List Nat))
    (hB : ∀ s, behav s = Except.ok ())
    (hc : c < totalSlots (planOf p)) :
    (execute behav (some c) p runId dur σs).2.2 = RunRes.cancelled ∧
    statusOf (execute behav (some c) p runId dur σs).2.2
      = MStatus.cancelled ∧
    MStatus.cancelled ≠ MStatus.fail ∧
    ((execute behav (some c) p runId dur σs).2.1).filter isFinishRun
      = [PCall.finishRun MStatus.cancelled
          (renderLogM (execute behav (some c) p runId dur σs).1) dur] := by
  have hres : (execute behav (some c) p runId dur σs).2.2
      = RunRes.cancelled := by
    simp only [execute]
    exact execStages_cancelled behav c hB (planOf p) 0 σs (Nat.zero_le c)
      (by simpa using hc)
  refine ⟨hres, by rw [hres]; rfl, by simp, ?_⟩
  have := execute_finishRun_char behav (some c) p runId dur σs
  rw [hres] at this
  simpa [statusOf] using this

theorem c6_witness :
    (execute c6Behav (some 1) c6Pipe ("r6") 9 []).2.2 = RunRes.cancelled ∧
    statusOf (execute c6Behav (some 1) c6Pipe ("r6") 9 []).2.2
      = MStatus.cancelled ∧
    MStatus.cancelled ≠ MStatus.fail ∧
    ((execute c6Behav (some 1) c6Pipe ("r6") 9 []).2.1).filter isFinishRun
      = [PCall.finishRun MStatus.cancelled
          (renderLogM (execute c6Behav (some 1) c6Pipe ("r6") 9 []).1) 9] :=
  c6_stop_finalizes_cancelled_not_fail c6Behav c6Pipe 1 ("r6") 9 []
    (fun _ => rfl) (by decide)

